import Mathlib

set_option linter.unusedVariables false
set_option maxRecDepth 4000

/-!
Verification of the OpenClaw Expanso excerpt.

Strings are modelled as `List Char`.  The diagnostic-line parser
(`parseBinaryOutput` and its helpers) is modelled from the specification,
because the repository excerpt contains only its test file
(`src/unnamed/part_001`), not the implementation (`expanso-validator.ts`).
The sandbox-audit and fix-button functions are embedded from
`src/security/expanso-audit.ts` and `src/agents/tools/expanso-fix-button.ts`.
-/

-- ===========================================================================
-- Basic character / string helpers
-- ===========================================================================

/-- Whitespace characters recognised by the model of string trimming. -/
def isWs (c : Char) : Bool := c == ' ' || c == '\t' || c == '\n' || c == '\r'

/-- ASCII decimal digit test. -/
def isDigitCh (c : Char) : Bool := '0' ≤ c && c ≤ '9'

/-- ASCII uppercase letter test. -/
def isUpperCh (c : Char) : Bool := 'A' ≤ c && c ≤ 'Z'

/-- Lowercase an ASCII uppercase letter, leave other characters alone. -/
def toLowerCh (c : Char) : Char :=
  if isUpperCh c then Char.ofNat (c.toNat + 32) else c

/-- Remove leading and trailing whitespace (the model of JS `trim`). -/
def trim (l : List Char) : List Char :=
  ((l.dropWhile isWs).reverse.dropWhile isWs).reverse

/-- `startsWith p l` holds when `l` begins with `p` (JS `startsWith`). -/
def startsWith : List Char → List Char → Bool
  | [], _ => true
  | _ :: _, [] => false
  | p :: ps, c :: cs => p == c && startsWith ps cs

/-- `containsSub s l` holds when `s` occurs contiguously inside `l`
(JS `includes`). -/
def containsSub (s : List Char) : List Char → Bool
  | [] => startsWith s []
  | c :: cs => startsWith s (c :: cs) || containsSub s cs

/-- Split a character list at newline characters; mirrors JS
`String.split("\n")`, so `n` newlines give `n + 1` pieces. -/
def splitLines : List Char → List (List Char)
  | [] => [[]]
  | c :: rest =>
    match splitLines rest with
    | [] => if c == '\n' then [[], []] else [[c]]
    | l :: ls => if c == '\n' then [] :: l :: ls else (c :: l) :: ls

/-- Join a list of lines with newline separators (inverse of `splitLines`
on newline-free pieces). -/
def joinNL : List (List Char) → List Char
  | [] => []
  | [m] => m
  | m :: rest => m ++ '\n' :: joinNL rest

-- ===========================================================================
-- Diagnostic line parser, modelled from the spec (§4.1)
-- ===========================================================================

/-- The characters of the severity string ERROR followed by a colon. -/
def errorMark : List Char := ['E', 'R', 'R', 'O', 'R', ':']

/-- The characters of the severity string WARNING followed by a colon. -/
def warningMark : List Char := ['W', 'A', 'R', 'N', 'I', 'N', 'G', ':']

/-- The characters of the severity string WARN followed by a colon. -/
def warnMark : List Char := ['W', 'A', 'R', 'N', ':']

/-- The characters of the noise string INFO. -/
def infoMark : List Char := ['I', 'N', 'F', 'O']

/-- The characters of the noise string DEBUG. -/
def debugMark : List Char := ['D', 'E', 'B', 'U', 'G']

/-- The characters of the location keyword. -/
def lineKw : List Char := ['l', 'i', 'n', 'e']

/-- Modelled from the spec: step 3 of the parser algorithm — a trimmed line
beginning with the noise string INFO or DEBUG (case-sensitive, optionally
followed by a colon or space, which as a prefix test reduces to beginning
with the bare word) is skipped.  The implementation file
`expanso-validator.ts` is not part of the excerpt. -/
def isNoise (l : List Char) : Bool :=
  startsWith infoMark l || startsWith debugMark l

/-- Modelled from the spec: step 4 — strip a leading severity string, in
order of specificity ERROR:, WARNING:, WARN: (case-sensitive exact), then
drop the whitespace immediately following it.  The implementation file
`expanso-validator.ts` is not part of the excerpt. -/
def stripSeverity (l : List Char) : List Char :=
  if startsWith errorMark l then (l.drop 6).dropWhile isWs
  else if startsWith warningMark l then (l.drop 8).dropWhile isWs
  else if startsWith warnMark l then (l.drop 5).dropWhile isWs
  else l

/-- Modelled from the spec: the location pattern anchored at the current
position — the word line (case-insensitive), one or more whitespace
characters, one or more digits; returns the digit characters. -/
def locDigitsAt (l : List Char) : Option (List Char) :=
  if (l.take 4).map toLowerCh = lineKw then
    let r := l.drop 4
    if r.takeWhile isWs = ([] : List Char) then none
    else
      let ds := (r.dropWhile isWs).takeWhile isDigitCh
      if ds = ([] : List Char) then none else some ds
  else none

/-- Modelled from the spec: step 5 — scan the candidate message for the
first case-insensitive substring matching line-whitespace-digits; the
matched text stays in place in the message. -/
def findLoc : List Char → Option (List Char)
  | [] => none
  | c :: cs =>
    match locDigitsAt (c :: cs) with
    | some ds => some ds
    | none => findLoc cs

/-- Modelled from the spec: step 5 — a code is one or more uppercase ASCII
letters immediately followed by one or more digits, anchored at the start
of the candidate message; the code, an optional following colon, and the
whitespace after it are removed from the message. -/
def extractCode (l : List Char) : Option (List Char) × List Char :=
  let letters := l.takeWhile isUpperCh
  let r1 := l.dropWhile isUpperCh
  let digits := r1.takeWhile isDigitCh
  let r2 := r1.dropWhile isDigitCh
  if letters = ([] : List Char) ∨ digits = ([] : List Char) then (none, l)
  else
    let r3 := if r2.head? = some ':' then r2.tail else r2
    (some (letters ++ digits), r3.dropWhile isWs)

/-- One parsed finding: message text, optional code, optional location. -/
structure Diagnostic where
  message : List Char
  code : Option (List Char) := none
  location : Option (List Char) := none
deriving DecidableEq, Repr

/-- Modelled from the spec: steps 2–6 of the parser algorithm applied to a
single raw line — trim, skip blank and noise lines, strip a severity
string, extract location (captured as the word line, a space, and the
digits; left in place in the message) and code.  The implementation file
`expanso-validator.ts` is not part of the excerpt. -/
def parseLine (raw : List Char) : Option Diagnostic :=
  let t := trim raw
  if t = ([] : List Char) then none
  else if isNoise t then none
  else
    let cand := stripSeverity t
    let loc := findLoc cand
    let cm := extractCode cand
    some { message := cm.2, code := cm.1,
           location := loc.map (fun ds => lineKw ++ ' ' :: ds) }

/-- Modelled from the spec: step 7 — process the lines in order, keeping a
produced Diagnostic unless its message equals the message of the
immediately preceding kept Diagnostic (`lastMsg`). -/
def processLines : List (List Char) → Option (List Char) → List Diagnostic
  | [], _ => []
  | l :: rest, lastMsg =>
    match parseLine l with
    | none => processLines rest lastMsg
    | some d =>
      if lastMsg = some d.message then processLines rest lastMsg
      else d :: processLines rest (some d.message)

/-- Modelled from the spec: the whole parser (§4.1) — split into lines,
process each line, and when zero Diagnostics were produced and the trimmed
input is non-empty emit one fallback Diagnostic whose message is the full
trimmed input.  The stream flag is threaded through but never consulted.
The implementation file `expanso-validator.ts` is not part of the excerpt. -/
def parseBinaryOutput (rawText : List Char) (isErrorStream : Bool) : List Diagnostic :=
  let diags := processLines (splitLines rawText) none
  if diags = [] ∧ trim rawText ≠ [] then [{ message := trim rawText }] else diags

-- ===========================================================================
-- Sandbox audit findings, from src/security/expanso-audit.ts
-- ===========================================================================

/-- One security-audit finding (the shape used by the audit module; its
declaring file `audit-extra.ts` is outside the excerpt). -/
structure SecurityAuditFinding where
  checkId : String
  severity : String
  title : String
  detail : String
  remediation : Option String := none
deriving DecidableEq, Repr

/-- Recommended Docker isolation flags (`EXPANSO_SANDBOX_ISOLATION_FLAGS`). -/
def EXPANSO_SANDBOX_ISOLATION_FLAGS : List String :=
  ["--network none", "--read-only", "--tmpfs /tmp",
   "--security-opt no-new-privileges", "--cap-drop ALL", "--user 65534:65534"]

/-- Sandbox configuration options; optional fields model optional TS
properties (`none` = property absent). -/
structure ExpansoSandboxOptions where
  dockerEnabled : Option Bool := none
  dockerImage : Option String := none
  networkMode : Option String := none
  readOnlyRootfs : Option Bool := none
  capsDropped : Option Bool := none
  nonRootUser : Option Bool := none
deriving DecidableEq, Repr

/-- The finding pushed when the Docker sandbox is not enabled. -/
def dockerDisabledFinding : SecurityAuditFinding :=
  { checkId := "expanso.sandbox.docker_disabled"
    severity := "warn"
    title := "Expanso validation sandbox is not using Docker isolation"
    detail := "The Expanso pipeline validator is executing the `expanso validate` binary directly on the host, without Docker isolation. Malformed or adversarial pipeline YAML could interact with host resources if the binary has vulnerabilities."
    remediation := some ("Enable Docker isolation by wrapping the binary in a container with: " ++ String.intercalate " " EXPANSO_SANDBOX_ISOLATION_FLAGS ++ ". See EXPANSO_SANDBOX_ISOLATION_FLAGS for the full recommended flag set.") }

/-- The finding pushed when the network mode is not none; `actual` is the
configured mode or the default note. -/
def networkFinding (actual : String) : SecurityAuditFinding :=
  { checkId := "expanso.sandbox.network_not_isolated"
    severity := "critical"
    title := "Expanso sandbox container has network access"
    detail := "Docker network mode is \"" ++ actual ++ "\"; the validation sandbox can reach the host network. A compromised binary or adversarial pipeline YAML could exfiltrate data or initiate outbound connections."
    remediation := some "Set Docker --network=none on the validation container." }

/-- The finding pushed when the root filesystem is writable. -/
def readonlyRootfsFinding : SecurityAuditFinding :=
  { checkId := "expanso.sandbox.no_readonly_rootfs"
    severity := "critical"
    title := "Expanso sandbox container root filesystem is writable"
    detail := "Docker --read-only is not set; the validation container's root filesystem is writable. A compromised binary could modify container files or stage a persistence mechanism."
    remediation := some "Add --read-only and --tmpfs /tmp to the docker run command." }

/-- The finding pushed when capabilities are not dropped. -/
def capsFinding : SecurityAuditFinding :=
  { checkId := "expanso.sandbox.caps_not_dropped"
    severity := "warn"
    title := "Expanso sandbox container retains Linux capabilities"
    detail := "Docker --cap-drop ALL is not set; the validation container retains default Linux capabilities, which increases the risk of privilege escalation."
    remediation := some "Add --cap-drop ALL to the docker run command." }

/-- The finding pushed when the container runs as root. -/
def rootUserFinding : SecurityAuditFinding :=
  { checkId := "expanso.sandbox.root_user"
    severity := "warn"
    title := "Expanso sandbox container runs as root"
    detail := "The validation container is running as root (UID 0). Even with other mitigations, running as root inside the container increases blast radius if the binary is exploited."
    remediation := some "Add --user 65534:65534 (nobody:nogroup) to the docker run command." }

/-- The finding pushed when every isolation check passes. -/
def isolatedFinding (dockerImage : Option String) : SecurityAuditFinding :=
  let image := match dockerImage with
    | some s => if s = "" then "" else " (" ++ s ++ ")"
    | none => ""
  { checkId := "expanso.sandbox.isolated"
    severity := "info"
    title := "Expanso sandbox is correctly isolated"
    detail := "Expanso validation sandbox" ++ image ++ " is running with --network none, --read-only, --cap-drop ALL, and a non-root user. Host network and filesystem are protected." }

/-- Embedding of `collectExpansoSandboxFindings` from
`src/security/expanso-audit.ts`.  The `opts` argument is optional
(`opts?`); a falsy `dockerEnabled` (absent or false) short-circuits to the
docker-disabled finding, otherwise the four isolation checks push their
findings in order and, when none fired, the info finding is pushed. -/
def collectExpansoSandboxFindings (opts : Option ExpansoSandboxOptions) :
    List SecurityAuditFinding :=
  match opts with
  | none => [dockerDisabledFinding]
  | some o =>
    if o.dockerEnabled ≠ some true then [dockerDisabledFinding]
    else
      let findings :=
        (if o.networkMode ≠ some "none" then
            [networkFinding (o.networkMode.getD "bridge (default)")]
          else [])
        ++ (if o.readOnlyRootfs ≠ some true then [readonlyRootfsFinding] else [])
        ++ (if o.capsDropped ≠ some true then [capsFinding] else [])
        ++ (if o.nonRootUser ≠ some true then [rootUserFinding] else [])
      if findings = [] then [isolatedFinding o.dockerImage] else findings

-- ===========================================================================
-- Fix button helpers, from src/agents/tools/expanso-fix-button.ts
-- ===========================================================================

/-- Component ID of the Expanso Fix button on Discord. -/
def EXPANSO_FIX_COMPONENT_ID : List Char := "expanso-fix".toList

/-- Callback data string of the Expanso Fix button on Telegram. -/
def EXPANSO_FIX_CALLBACK_DATA : List Char := "expanso_fix".toList

/-- Label shown on the Fix button on both platforms. -/
def EXPANSO_FIX_BUTTON_LABEL : List Char := "🔧 Fix".toList

/-- One Telegram inline keyboard button (the shape used from
`telegram/model-buttons.ts`, outside the excerpt). -/
structure TelegramInlineButton where
  text : List Char
  callback_data : List Char
deriving DecidableEq, Repr

/-- Embedding of `buildExpansoFixTelegramButton`: one row with the Fix
button. -/
def buildExpansoFixTelegramButton : List TelegramInlineButton :=
  [{ text := EXPANSO_FIX_BUTTON_LABEL, callback_data := EXPANSO_FIX_CALLBACK_DATA }]

/-- Embedding of `isExpansoFixTelegramCallback`: the trimmed callback data
equals the fixed callback string. -/
def isExpansoFixTelegramCallback (data : List Char) : Bool :=
  trim data = EXPANSO_FIX_CALLBACK_DATA

/-- The substring searched for by the Discord event detector. -/
def fixNeedle : List Char :=
  "component: ".toList ++ EXPANSO_FIX_COMPONENT_ID ++ " clicked".toList

/-- Embedding of `isExpansoFixDiscordEvent`: the event text contains the
fixed component-clicked substring. -/
def isExpansoFixDiscordEvent (eventText : List Char) : Bool :=
  containsSub fixNeedle eventText

/-- The two chat platforms the fix button supports. -/
inductive Platform
  | discord
  | telegram
deriving DecidableEq, Repr

/-- Display name used inside the event text. -/
def platformName : Platform → List Char
  | .discord => "Discord".toList
  | .telegram => "Telegram".toList

/-- Embedding of `buildExpansoFixEventText`: the bracketed system event
text naming the platform, the component, and the clicking user. -/
def buildExpansoFixEventText (platform : Platform) (username userId : List Char) :
    List Char :=
  '[' :: platformName platform ++ " component: ".toList ++ EXPANSO_FIX_COMPONENT_ID
    ++ " clicked by ".toList ++ username ++ " (".toList ++ userId ++ ")]".toList

-- ===========================================================================
-- Helper lemmas: startsWith / containsSub
-- ===========================================================================

/-- `startsWith` agrees with existence of a completing tail. -/
theorem startsWith_iff (p l : List Char) :
    startsWith p l = true ↔ ∃ t, p ++ t = l := by
  induction p generalizing l with
  | nil => simp [startsWith]
  | cons a as ih =>
    cases l with
    | nil => simp [startsWith]
    | cons c cs =>
      simp only [startsWith, Bool.and_eq_true, beq_iff_eq, ih, List.cons_append,
        List.cons.injEq]
      constructor
      · rintro ⟨rfl, t, rfl⟩; exact ⟨t, rfl, rfl⟩
      · rintro ⟨t, rfl, rfl⟩; exact ⟨rfl, t, rfl⟩

/-- A list starts with itself followed by anything. -/
theorem startsWith_append (s t : List Char) : startsWith s (s ++ t) = true :=
  (startsWith_iff s (s ++ t)).mpr ⟨t, rfl⟩

/-- `containsSub` agrees with existence of a surrounding context. -/
theorem containsSub_iff (s l : List Char) :
    containsSub s l = true ↔ ∃ u v, u ++ (s ++ v) = l := by
  induction l with
  | nil =>
    simp only [containsSub, startsWith_iff]
    constructor
    · rintro ⟨t, ht⟩; exact ⟨[], t, ht⟩
    · rintro ⟨u, v, huv⟩
      rcases List.append_eq_nil.mp huv with ⟨rfl, h2⟩
      exact ⟨v, h2⟩
  | cons c cs ih =>
    simp only [containsSub, Bool.or_eq_true, startsWith_iff, ih]
    constructor
    · rintro (⟨t, ht⟩ | ⟨u, v, huv⟩)
      · exact ⟨[], t, ht⟩
      · exact ⟨c :: u, v, by rw [List.cons_append, huv]⟩
    · rintro ⟨u, v, huv⟩
      cases u with
      | nil => exact Or.inl ⟨v, by simpa using huv⟩
      | cons x xs =>
        right
        rw [List.cons_append] at huv
        exact ⟨xs, v, (List.cons_eq_cons.mp huv).2⟩

/-- A string contains any string it starts with. -/
theorem containsSub_of_startsWith {s l : List Char} (h : startsWith s l = true) :
    containsSub s l = true := by
  rcases (startsWith_iff s l).mp h with ⟨t, ht⟩
  exact (containsSub_iff s l).mpr ⟨[], t, ht⟩

/-- Containment is preserved by consing a character on the left. -/
theorem containsSub_cons {s l : List Char} (c : Char) (h : containsSub s l = true) :
    containsSub s (c :: l) = true := by
  rcases (containsSub_iff s l).mp h with ⟨u, v, huv⟩
  exact (containsSub_iff s (c :: l)).mpr ⟨c :: u, v, by rw [List.cons_append, huv]⟩

/-- Containment is preserved by appending on the left. -/
theorem containsSub_append_left {s l : List Char} (u : List Char)
    (h : containsSub s l = true) : containsSub s (u ++ l) = true := by
  induction u with
  | nil => simpa using h
  | cons c cs ih => exact containsSub_cons c ih

/-- Containment transfers along a suffix decomposition. -/
theorem containsSub_of_suffix {s m l : List Char} (h : containsSub s m = true)
    (hsuf : ∃ t, t ++ m = l) : containsSub s l = true := by
  rcases hsuf with ⟨t, rfl⟩
  exact containsSub_append_left t h


-- ===========================================================================
-- Helper lemmas: trim and splitLines
-- ===========================================================================

/-- The trim of a list is empty exactly when the list is all whitespace. -/
theorem trim_eq_nil_iff (s : List Char) :
    trim s = [] ↔ ∀ c ∈ s, isWs c = true := by
  unfold trim
  rw [List.reverse_eq_nil_iff, List.dropWhile_eq_nil_iff]
  constructor
  · intro h c hc
    rcases List.mem_append.mp
        ((List.takeWhile_append_dropWhile (p := isWs) (l := s)) ▸ hc) with h1 | h1
    · exact List.mem_takeWhile_imp h1
    · exact h c (List.mem_reverse.mpr h1)
  · intro h c hc
    have hmem : c ∈ s.dropWhile isWs := List.mem_reverse.mp hc
    have hs : c ∈ s := by
      rw [← List.takeWhile_append_dropWhile (p := isWs) (l := s)]
      exact List.mem_append_right _ hmem
    exact h c hs

/-- `splitLines` never returns the empty list of pieces. -/
theorem splitLines_ne_nil (s : List Char) : splitLines s ≠ [] := by
  cases s with
  | nil => simp [splitLines]
  | cons c rest =>
    simp only [splitLines]
    rcases splitLines rest with _ | ⟨l, ls⟩ <;> by_cases h : c = '\n' <;> simp [h]

/-- Every character of every piece of `splitLines s` is a character of `s`. -/
theorem mem_of_mem_splitLines {s piece : List Char} {c : Char}
    (hp : piece ∈ splitLines s) (hc : c ∈ piece) : c ∈ s := by
  induction s generalizing piece with
  | nil =>
    simp only [splitLines, List.mem_singleton] at hp
    subst hp; simp at hc
  | cons a rest ih =>
    rcases hsplit : splitLines rest with _ | ⟨l, ls⟩
    · exact absurd hsplit (splitLines_ne_nil rest)
    · rw [splitLines, hsplit] at hp
      by_cases ha : a = '\n'
      · simp only [ha, beq_self_eq_true, if_true, List.mem_cons] at hp
        rcases hp with rfl | rfl | hp
        · simp at hc
        · exact List.mem_cons_of_mem a
            (ih (hsplit.symm ▸ List.mem_cons_self _ _) hc)
        · exact List.mem_cons_of_mem a
            (ih (hsplit.symm ▸ List.mem_cons_of_mem _ hp) hc)
      · simp only [beq_eq_false_iff_ne.mpr ha, Bool.false_eq_true, if_false,
          List.mem_cons] at hp
        rcases hp with rfl | hp
        · rcases List.mem_cons.mp hc with rfl | hc2
          · exact List.mem_cons_self c rest
          · exact List.mem_cons_of_mem a
              (ih (hsplit.symm ▸ List.mem_cons_self l ls) hc2)
        · exact List.mem_cons_of_mem a
            (ih (hsplit.symm ▸ List.mem_cons_of_mem l hp) hc)

/-- Splitting a text whose first line is newline-free peels that line off. -/
theorem splitLines_append (a b : List Char) (ha : '\n' ∉ a) :
    splitLines (a ++ '\n' :: b) = a :: splitLines b := by
  induction a with
  | nil =>
    rw [List.nil_append, splitLines]
    rcases h : splitLines b with _ | ⟨l, ls⟩
    · exact absurd h (splitLines_ne_nil b)
    · simp
  | cons c cs ih =>
    have hc : c ≠ '\n' := fun h => ha (h ▸ List.mem_cons_self c cs)
    have ih2 := ih (fun h => ha (List.mem_cons_of_mem c h))
    rw [List.cons_append, splitLines, ih2]
    simp [beq_eq_false_iff_ne.mpr hc]

/-- Splitting a newline-free text gives a single piece. -/
theorem splitLines_of_no_nl (a : List Char) (ha : '\n' ∉ a) :
    splitLines a = [a] := by
  induction a with
  | nil => simp [splitLines]
  | cons c cs ih =>
    have hc : c ≠ '\n' := fun h => ha (h ▸ List.mem_cons_self c cs)
    have ih2 := ih (fun h => ha (List.mem_cons_of_mem c h))
    rw [splitLines, ih2]
    simp [beq_eq_false_iff_ne.mpr hc]

/-- `splitLines` undoes `joinNL` on a non-empty list of newline-free lines. -/
theorem splitLines_joinNL (ms : List (List Char)) (hne : ms ≠ [])
    (h : ∀ m ∈ ms, '\n' ∉ m) : splitLines (joinNL ms) = ms := by
  induction ms with
  | nil => exact absurd rfl hne
  | cons m rest ih =>
    cases rest with
    | nil => exact splitLines_of_no_nl m (h m (List.mem_cons_self m []))
    | cons m2 rest2 =>
      have hj : joinNL (m :: m2 :: rest2) = m ++ '\n' :: joinNL (m2 :: rest2) := rfl
      rw [hj, splitLines_append m _ (h m (List.mem_cons_self m _)),
        ih (by simp) (fun x hx => h x (List.mem_cons_of_mem m hx))]

-- ===========================================================================
-- Helper lemmas: parseLine and processLines
-- ===========================================================================

/-- A whitespace-only line produces no Diagnostic. -/
theorem parseLine_none_of_trim_nil {raw : List Char} (h : trim raw = []) :
    parseLine raw = none := by
  simp [parseLine, h]

/-- A noise line produces no Diagnostic. -/
theorem parseLine_none_of_noise {raw : List Char}
    (h : isNoise (trim raw) = true) : parseLine raw = none := by
  by_cases ht : trim raw = []
  · exact parseLine_none_of_trim_nil ht
  · simp [parseLine, ht, h]

/-- Unfolding of `parseLine` on a line that is neither blank nor noise. -/
theorem parseLine_eq {raw t : List Char} (ht : trim raw = t) (h1 : t ≠ [])
    (h2 : isNoise t = false) :
    parseLine raw = some
      { message := (extractCode (stripSeverity t)).2
        code := (extractCode (stripSeverity t)).1
        location := (findLoc (stripSeverity t)).map (fun ds => lineKw ++ ' ' :: ds) } := by
  simp [parseLine, ht, h1, h2]

/-- When no line parses, processing produces no Diagnostics. -/
theorem processLines_eq_nil {ls : List (List Char)}
    (h : ∀ l ∈ ls, parseLine l = none) (last : Option (List Char)) :
    processLines ls last = [] := by
  induction ls with
  | nil => rfl
  | cons l rest ih =>
    rw [processLines, h l (List.mem_cons_self l rest)]
    exact ih (fun x hx => h x (List.mem_cons_of_mem l hx))

/-- Processed Diagnostics have pairwise distinct adjacent messages, and the
first one differs from the incoming last-kept message. -/
theorem processLines_chain (ls : List (List Char)) (last : Option (List Char)) :
    List.Chain' (fun a b => a.message ≠ b.message) (processLines ls last) ∧
      ∀ d, (processLines ls last).head? = some d → last ≠ some d.message := by
  induction ls generalizing last with
  | nil => exact ⟨List.chain'_nil, by intro d hd; simp [processLines] at hd⟩
  | cons l rest ih =>
    cases hp : parseLine l with
    | none => simpa only [processLines, hp] using ih last
    | some d =>
      by_cases hl : last = some d.message
      · simp only [processLines, hp, if_pos hl]
        exact ih last
      · simp only [processLines, hp, if_neg hl]
        refine ⟨List.chain'_cons'.mpr ⟨?_, (ih (some d.message)).1⟩, ?_⟩
        · intro y hy
          have := (ih (some d.message)).2 y hy
          intro heq
          exact this (by rw [heq])
        · intro d2 hd2
          rw [List.head?_cons, Option.some.injEq] at hd2
          subst hd2
          exact hl

/-- Every processed Diagnostic comes from parsing one of the lines. -/
theorem processLines_mem {ls : List (List Char)} {last : Option (List Char)}
    {d : Diagnostic} (h : d ∈ processLines ls last) :
    ∃ l, l ∈ ls ∧ parseLine l = some d := by
  induction ls generalizing last with
  | nil => simp [processLines] at h
  | cons l rest ih =>
    cases hp : parseLine l with
    | none =>
      simp only [processLines, hp] at h
      rcases ih h with ⟨x, hx, hxd⟩
      exact ⟨x, List.mem_cons_of_mem l hx, hxd⟩
    | some d2 =>
      simp only [processLines, hp] at h
      by_cases hl : last = some d2.message
      · rw [if_pos hl] at h
        rcases ih h with ⟨x, hx, hxd⟩
        exact ⟨x, List.mem_cons_of_mem l hx, hxd⟩
      · rw [if_neg hl] at h
        rcases List.mem_cons.mp h with rfl | h2
        · exact ⟨l, List.mem_cons_self l rest, hp⟩
        · rcases ih h2 with ⟨x, hx, hxd⟩
          exact ⟨x, List.mem_cons_of_mem l hx, hxd⟩

/-- The parser returns no Diagnostics exactly on whitespace-only input. -/
theorem parseBinaryOutput_eq_nil_iff (raw : List Char) (b : Bool) :
    parseBinaryOutput raw b = [] ↔ trim raw = [] := by
  constructor
  · intro h
    by_contra hne
    rw [parseBinaryOutput] at h
    by_cases hd : processLines (splitLines raw) none = []
    · rw [if_pos ⟨hd, hne⟩] at h
      exact List.cons_ne_nil _ _ h
    · rw [if_neg (fun hc => hd hc.1)] at h
      exact hd h
  · intro h
    have hall : ∀ c ∈ raw, isWs c = true := (trim_eq_nil_iff raw).mp h
    have hlines : ∀ l ∈ splitLines raw, parseLine l = none := by
      intro l hl
      exact parseLine_none_of_trim_nil
        ((trim_eq_nil_iff l).mpr (fun c hc => hall c (mem_of_mem_splitLines hl hc)))
    rw [parseBinaryOutput, processLines_eq_nil hlines none,
      if_neg (fun hc => hc.2 h)]

/-- Adjacent Diagnostics in any parse result have distinct messages. -/
theorem parseBinaryOutput_chain (raw : List Char) (b : Bool) :
    List.Chain' (fun a b => a.message ≠ b.message) (parseBinaryOutput raw b) := by
  rw [parseBinaryOutput]
  by_cases hc : processLines (splitLines raw) none = [] ∧ trim raw ≠ []
  · rw [if_pos hc]
    exact List.chain'_singleton _
  · rw [if_neg hc]
    exact (processLines_chain (splitLines raw) none).1


-- ===========================================================================
-- Helper lemmas: suffix decompositions, extractCode, stripSeverity
-- ===========================================================================

/-- Transitivity of the tail-decomposition relation. -/
theorem sufTrans {a b c : List Char} (h1 : ∃ t, t ++ a = b) (h2 : ∃ t, t ++ b = c) :
    ∃ t, t ++ a = c := by
  rcases h1 with ⟨t1, rfl⟩
  rcases h2 with ⟨t2, rfl⟩
  exact ⟨t2 ++ t1, List.append_assoc t2 t1 a⟩

/-- `dropWhile` yields a tail of its input. -/
theorem dropWhile_suf (p : Char → Bool) (l : List Char) :
    ∃ t, t ++ l.dropWhile p = l :=
  ⟨l.takeWhile p, List.takeWhile_append_dropWhile p l⟩

/-- `drop` yields a tail of its input. -/
theorem drop_suf (n : Nat) (l : List Char) : ∃ t, t ++ l.drop n = l :=
  ⟨l.take n, List.take_append_drop n l⟩

/-- The message part returned by `extractCode` is a tail of its input. -/
theorem extractCode_snd_suf (l : List Char) : ∃ t, t ++ (extractCode l).2 = l := by
  rw [extractCode]
  by_cases h : l.takeWhile isUpperCh = ([] : List Char) ∨
      (l.dropWhile isUpperCh).takeWhile isDigitCh = ([] : List Char)
  · rw [if_pos h]
    exact ⟨[], rfl⟩
  · rw [if_neg h]
    have h1 : ∃ t, t ++ (l.dropWhile isUpperCh).dropWhile isDigitCh = l :=
      sufTrans (dropWhile_suf isDigitCh _) (dropWhile_suf isUpperCh l)
    refine sufTrans (sufTrans (dropWhile_suf isWs _) ?_) h1
    by_cases hh : ((l.dropWhile isUpperCh).dropWhile isDigitCh).head? = some ':'
    · rw [if_pos hh]
      rcases hr : (l.dropWhile isUpperCh).dropWhile isDigitCh with _ | ⟨c, cs⟩
      · rw [hr] at hh; simp at hh
      · exact ⟨[c], rfl⟩
    · rw [if_neg hh]
      exact ⟨[], rfl⟩

/-- When `extractCode` finds no code it leaves the message unchanged. -/
theorem extractCode_none_snd {l : List Char} (h : (extractCode l).1 = none) :
    (extractCode l).2 = l := by
  rw [extractCode] at h ⊢
  by_cases hc : l.takeWhile isUpperCh = ([] : List Char) ∨
      (l.dropWhile isUpperCh).takeWhile isDigitCh = ([] : List Char)
  · rw [if_pos hc]
  · rw [if_neg hc] at h
    simp at h

/-- A text starting with the ERROR severity string is not noise. -/
theorem isNoise_error (r : List Char) : isNoise (errorMark ++ r) = false := rfl

/-- A text starting with the WARNING severity string is not noise. -/
theorem isNoise_warning (r : List Char) : isNoise (warningMark ++ r) = false := rfl

/-- A text starting with the WARN severity string is not noise. -/
theorem isNoise_warn (r : List Char) : isNoise (warnMark ++ r) = false := rfl

/-- Stripping a leading ERROR severity string. -/
theorem stripSeverity_error (r : List Char) :
    stripSeverity (errorMark ++ r) = r.dropWhile isWs := rfl

/-- Stripping a leading WARNING severity string. -/
theorem stripSeverity_warning (r : List Char) :
    stripSeverity (warningMark ++ r) = r.dropWhile isWs := rfl

/-- Stripping a leading WARN severity string. -/
theorem stripSeverity_warn (r : List Char) :
    stripSeverity (warnMark ++ r) = r.dropWhile isWs := rfl

-- ===========================================================================
-- Helper lemmas: location digits and reparsing
-- ===========================================================================

/-- Digits returned by `locDigitsAt` are non-empty and all decimal digits. -/
theorem locDigitsAt_digits {l ds : List Char} (h : locDigitsAt l = some ds) :
    ds ≠ [] ∧ ∀ c ∈ ds, isDigitCh c = true := by
  simp only [locDigitsAt] at h
  by_cases h1 : (l.take 4).map toLowerCh = lineKw
  · rw [if_pos h1] at h
    by_cases h2 : (l.drop 4).takeWhile isWs = ([] : List Char)
    · rw [if_pos h2] at h
      simp at h
    · rw [if_neg h2] at h
      by_cases h3 : ((l.drop 4).dropWhile isWs).takeWhile isDigitCh = ([] : List Char)
      · rw [if_pos h3] at h
        simp at h
      · rw [if_neg h3] at h
        rw [Option.some.injEq] at h
        subst h
        exact ⟨h3, fun c hc => List.mem_takeWhile_imp hc⟩
  · rw [if_neg h1] at h
    simp at h

/-- Digits returned by `findLoc` are non-empty and all decimal digits. -/
theorem findLoc_digits {l ds : List Char} (h : findLoc l = some ds) :
    ds ≠ [] ∧ ∀ c ∈ ds, isDigitCh c = true := by
  induction l with
  | nil => simp [findLoc] at h
  | cons c cs ih =>
    cases hla : locDigitsAt (c :: cs) with
    | some ds2 =>
      simp only [findLoc, hla, Option.some.injEq] at h
      exact h ▸ locDigitsAt_digits hla
    | none =>
      simp only [findLoc, hla] at h
      exact ih h

/-- Processing lines that each parse to a Diagnostic carrying the line
itself as message reproduces the lines, provided adjacent lines differ and
the first line differs from the incoming last-kept message. -/
theorem processLines_msgs : ∀ (ms : List (List Char)) (last : Option (List Char)),
    (∀ m ∈ ms, ∃ d, parseLine m = some d ∧ d.message = m) →
    List.Chain' (fun a b => a ≠ b) ms →
    (∀ m0 ∈ ms.head?, last ≠ some m0) →
    (processLines ms last).map Diagnostic.message = ms := by
  intro ms
  induction ms with
  | nil => intro last h hchain hlast; rfl
  | cons m rest ih =>
    intro last h hchain hlast
    rcases h m (List.mem_cons_self m rest) with ⟨d, hd, hmsg⟩
    have hne : last ≠ some d.message := by
      rw [hmsg]
      exact hlast m (by simp)
    simp only [processLines, hd, if_neg hne, List.map_cons]
    rw [List.cons.injEq]
    refine ⟨hmsg, ?_⟩
    refine ih (some d.message) (fun x hx => h x (List.mem_cons_of_mem m hx))
      (List.chain'_cons'.mp hchain).2 ?_
    intro m0 hm0 hcontra
    have hne2 : m ≠ m0 := (List.chain'_cons'.mp hchain).1 m0 hm0
    rw [hmsg] at hcontra
    exact hne2 (Option.some_inj.mp hcontra)

/-- Reparsing the newline-join of messages that are trimmed, non-empty,
newline-free, and carry no noise, severity, or code marker reproduces the
messages, provided adjacent messages differ. -/
theorem reparse_messages (ms : List (List Char)) (b : Bool)
    (h : ∀ m ∈ ms, trim m = m ∧ m ≠ [] ∧ isNoise m = false ∧ stripSeverity m = m ∧
      (extractCode m).1 = none ∧ '\n' ∉ m)
    (hchain : List.Chain' (fun a b => a ≠ b) ms) :
    (parseBinaryOutput (joinNL ms) b).map Diagnostic.message = ms := by
  by_cases hms : ms = []
  · subst hms
    rw [show joinNL [] = [] from rfl, (parseBinaryOutput_eq_nil_iff [] b).mpr rfl]
    rfl
  · have hsplit := splitLines_joinNL ms hms (fun m hm => (h m hm).2.2.2.2.2)
    have hparse : ∀ x ∈ ms, ∃ d, parseLine x = some d ∧ d.message = x := by
      intro x hx
      rcases h x hx with ⟨ht, hne, hn, hs, hcode, hnl⟩
      refine ⟨_, parseLine_eq ht hne hn, ?_⟩
      show (extractCode (stripSeverity x)).2 = x
      rw [hs]
      exact extractCode_none_snd hcode
    have hmsgs := processLines_msgs ms none hparse hchain (by simp)
    have hne2 : processLines ms none ≠ [] := by
      intro hnil
      rw [hnil] at hmsgs
      simp only [List.map_nil] at hmsgs
      exact hms hmsgs.symm
    simp only [parseBinaryOutput]
    rw [hsplit, if_neg (fun hc => hne2 hc.1)]
    exact hmsgs

-- ===========================================================================
-- Claim theorems
-- ===========================================================================

/-- C1: for every input whose trimmed content is empty, `parseBinaryOutput`
returns the empty sequence; and for every input whose trimmed content is
non-empty, if processing all lines produces zero Diagnostics, the result is
exactly one fallback Diagnostic whose message is the full trimmed input. -/
theorem claim1_empty_and_fallback :
    (∀ raw b, trim raw = [] → parseBinaryOutput raw b = []) ∧
    (∀ raw b, trim raw ≠ [] → processLines (splitLines raw) none = [] →
      parseBinaryOutput raw b =
        [{ message := trim raw, code := none, location := none }]) := by
  constructor
  · intro raw b h
    exact (parseBinaryOutput_eq_nil_iff raw b).mpr h
  · intro raw b h hproc
    simp only [parseBinaryOutput]
    rw [hproc, if_pos ⟨rfl, h⟩]

/-- Witness for C1 at concrete inputs. -/
theorem claim1_witness :
    parseBinaryOutput "   ".toList true = [] ∧
    parseBinaryOutput "INFO hello".toList true =
      [{ message := "INFO hello".toList, code := none, location := none }] :=
  ⟨claim1_empty_and_fallback.1 "   ".toList true (by decide),
   claim1_empty_and_fallback.2 "INFO hello".toList true (by decide) (by decide)⟩

/-- C3 counterexample: an input consisting of a single noise line produces,
via the fallback path, one Diagnostic whose message is the noise line, so a
noise line can produce a Diagnostic through the fallback. -/
theorem claim3_counterexample :
    isNoise (trim "DEBUG loading config".toList) = true ∧
    parseBinaryOutput "DEBUG loading config".toList true =
      [{ message := "DEBUG loading config".toList, code := none,
         location := none }] := by decide

/-- C3 (amended): a noise line never produces a per-line Diagnostic, and when
line processing produced at least one Diagnostic every Diagnostic of the
result comes from parsing some non-noise line; only the fallback path can
surface noise text. -/
theorem claim3_noise_skipped :
    (∀ line, isNoise (trim line) = true → parseLine line = none) ∧
    (∀ raw b d, processLines (splitLines raw) none ≠ [] →
      d ∈ parseBinaryOutput raw b →
      ∃ l, l ∈ splitLines raw ∧ parseLine l = some d ∧
        isNoise (trim l) = false) := by
  constructor
  · exact fun line h => parseLine_none_of_noise h
  · intro raw b d hne hd
    simp only [parseBinaryOutput] at hd
    rw [if_neg (fun hc => hne hc.1)] at hd
    rcases processLines_mem hd with ⟨l, hl, hpl⟩
    refine ⟨l, hl, hpl, ?_⟩
    by_contra hno
    rw [Bool.not_eq_false] at hno
    rw [parseLine_none_of_noise hno] at hpl
    exact Option.noConfusion hpl

/-- Witness for C3 at concrete inputs. -/
theorem claim3_witness :
    parseLine "DEBUG config".toList = none ∧
    (∃ l, l ∈ splitLines "INFO a\nERROR: boom".toList ∧
      parseLine l = some { message := "boom".toList, code := none,
                           location := none } ∧
      isNoise (trim l) = false) :=
  ⟨claim3_noise_skipped.1 "DEBUG config".toList (by decide),
   claim3_noise_skipped.2 "INFO a\nERROR: boom".toList true
     { message := "boom".toList, code := none, location := none }
     (by decide) (by decide)⟩

/-- C4: deduplication is adjacency-based only — adjacent Diagnostics in any
result have distinct messages, and three consecutive parseable lines whose
first and third messages coincide while the middle differs all survive. -/
theorem claim4_adjacent_dedup :
    (∀ raw b, List.Chain' (fun a b => a.message ≠ b.message)
      (parseBinaryOutput raw b)) ∧
    (∀ (l1 l2 l3 : List Char) (b : Bool) (d1 d2 d3 : Diagnostic),
      '\n' ∉ l1 → '\n' ∉ l2 → '\n' ∉ l3 →
      parseLine l1 = some d1 → parseLine l2 = some d2 → parseLine l3 = some d3 →
      d1.message = d3.message → d2.message ≠ d1.message →
      parseBinaryOutput (l1 ++ '\n' :: (l2 ++ '\n' :: l3)) b = [d1, d2, d3]) := by
  constructor
  · exact parseBinaryOutput_chain
  · intro l1 l2 l3 b d1 d2 d3 h1nl h2nl h3nl hp1 hp2 hp3 h13 hne21
    have hsplit : splitLines (l1 ++ '\n' :: (l2 ++ '\n' :: l3)) = [l1, l2, l3] := by
      rw [splitLines_append l1 _ h1nl, splitLines_append l2 _ h2nl,
        splitLines_of_no_nl l3 h3nl]
    have e1 : processLines [l1, l2, l3] none = [d1, d2, d3] := by
      simp only [processLines, hp1, hp2, hp3]
      rw [if_neg (fun hc => Option.noConfusion hc)]
      rw [if_neg (fun hc => hne21 (Option.some_inj.mp hc).symm)]
      rw [if_neg (fun hc => hne21 ((Option.some_inj.mp hc).trans h13.symm))]
    simp only [parseBinaryOutput]
    rw [hsplit, e1, if_neg (fun hc => List.cons_ne_nil _ _ hc.1)]

/-- Witness for C4 at a concrete repeated-but-separated input. -/
theorem claim4_witness :
    parseBinaryOutput "ERROR: a\nERROR: b\nERROR: a".toList true =
      [{ message := "a".toList, code := none, location := none },
       { message := "b".toList, code := none, location := none },
       { message := "a".toList, code := none, location := none }] := by
  have h := claim4_adjacent_dedup.2 "ERROR: a".toList "ERROR: b".toList
    "ERROR: a".toList true
    { message := "a".toList, code := none, location := none }
    { message := "b".toList, code := none, location := none }
    { message := "a".toList, code := none, location := none }
    (by decide) (by decide) (by decide) (by decide) (by decide) (by decide)
    (by decide) (by decide)
  have e : "ERROR: a\nERROR: b\nERROR: a".toList =
      "ERROR: a".toList ++ '\n' :: ("ERROR: b".toList ++ '\n' :: "ERROR: a".toList) := by
    decide
  rw [e]
  exact h

/-- C5: location extraction records the digits as the word line plus the
digits while leaving the matched text in place in the message, and code
extraction removes a leading letters-digits code with its colon and
whitespace; shown on the spec examples and by the general shape of every
extracted location. -/
theorem claim5_location_code :
    (parseBinaryOutput "parse error at line 42".toList true =
      [{ message := "parse error at line 42".toList, code := none,
         location := some "line 42".toList }]) ∧
    (parseBinaryOutput "E001: schema violation".toList true =
      [{ message := "schema violation".toList, code := some "E001".toList,
         location := none }]) ∧
    (∀ raw d, parseLine raw = some d →
      d.location = none ∨ ∃ n, d.location = some (lineKw ++ ' ' :: n) ∧
        n ≠ [] ∧ ∀ c ∈ n, isDigitCh c = true) := by
  refine ⟨by decide, by decide, ?_⟩
  intro raw d hd
  by_cases ht : trim raw = []
  · rw [parseLine_none_of_trim_nil ht] at hd
    exact Option.noConfusion hd
  · by_cases hn : isNoise (trim raw) = true
    · rw [parseLine_none_of_noise hn] at hd
      exact Option.noConfusion hd
    · have hn2 : isNoise (trim raw) = false := by
        rw [← Bool.not_eq_true]; exact hn
      rw [parseLine_eq rfl ht hn2, Option.some_inj] at hd
      subst hd
      cases hloc : findLoc (stripSeverity (trim raw)) with
      | none => left; simp [hloc]
      | some ds =>
        right
        exact ⟨ds, by simp [hloc], (findLoc_digits hloc).1, (findLoc_digits hloc).2⟩

/-- Witness for C5 part three at a concrete input. -/
theorem claim5_witness :
    parseLine "at line 7".toList =
      some { message := "at line 7".toList, code := none,
             location := some "line 7".toList } ∧
    (({ message := "at line 7".toList, code := none,
        location := some "line 7".toList } : Diagnostic).location = none ∨
      ∃ n, ({ message := "at line 7".toList, code := none,
              location := some "line 7".toList } : Diagnostic).location =
          some (lineKw ++ ' ' :: n) ∧ n ≠ [] ∧ ∀ c ∈ n, isDigitCh c = true) :=
  ⟨by decide, claim5_location_code.2.2 "at line 7".toList _ (by decide)⟩

/-- C6: the stream flag does not influence the parse result. -/
theorem claim6_stream_flag_noninterference :
    ∀ raw b1 b2, parseBinaryOutput raw b1 = parseBinaryOutput raw b2 :=
  fun _ _ _ => rfl

/-- C7: the parser is a total pure function — on every input it yields a
well-defined Diagnostic list, empty exactly on whitespace-only input, so
unparseable text degrades to the fallback instead of failing. -/
theorem claim7_total :
    ∀ raw b, ∃ ds : List Diagnostic, parseBinaryOutput raw b = ds ∧
      (ds = [] ↔ trim raw = []) :=
  fun raw b => ⟨parseBinaryOutput raw b, rfl, parseBinaryOutput_eq_nil_iff raw b⟩

/-- C2 counterexample: the line ERROR: ERROR: x begins with the ERROR
severity string, yet the resulting Diagnostic message still contains that
severity string (only the leading occurrence is stripped). -/
theorem claim2_counterexample :
    startsWith errorMark (trim "ERROR: ERROR: x".toList) = true ∧
    parseBinaryOutput "ERROR: ERROR: x".toList true =
      [{ message := "ERROR: x".toList, code := none, location := none }] ∧
    containsSub errorMark "ERROR: x".toList = true := by decide

/-- C2 (amended): for every line whose trim begins with one of the severity
strings, the leading marker occurrence and the whitespace after it are
stripped, and the resulting Diagnostic message does not contain the marker
provided the marker does not occur again in the remainder of the line. -/
theorem claim2_severity_stripped :
    ∀ (raw mk : List Char), mk ∈ [errorMark, warningMark, warnMark] →
    startsWith mk (trim raw) = true →
    containsSub mk ((trim raw).drop mk.length) = false →
    ∃ d, parseLine raw = some d ∧ containsSub mk d.message = false := by
  intro raw mk hmk hsw hni
  rcases (startsWith_iff mk (trim raw)).mp hsw with ⟨rest, hrest⟩
  have hdrop : (trim raw).drop mk.length = rest := by
    rw [← hrest]
    exact List.drop_left mk rest
  rw [hdrop] at hni
  have hsuf : ∃ t, t ++ (extractCode (rest.dropWhile isWs)).2 = rest :=
    sufTrans (extractCode_snd_suf _) (dropWhile_suf isWs rest)
  simp only [List.mem_cons, List.not_mem_nil, or_false] at hmk
  rcases hmk with rfl | rfl | rfl
  · have ht : trim raw = errorMark ++ rest := hrest.symm
    have hne : errorMark ++ rest ≠ [] := by simp [errorMark]
    refine ⟨_, parseLine_eq ht hne (isNoise_error rest), ?_⟩
    show containsSub errorMark (extractCode (stripSeverity (errorMark ++ rest))).2 = false
    rw [stripSeverity_error]
    by_contra hc
    rw [Bool.not_eq_false] at hc
    have hcr := containsSub_of_suffix hc hsuf
    rw [hni] at hcr
    exact Bool.false_ne_true hcr
  · have ht : trim raw = warningMark ++ rest := hrest.symm
    have hne : warningMark ++ rest ≠ [] := by simp [warningMark]
    refine ⟨_, parseLine_eq ht hne (isNoise_warning rest), ?_⟩
    show containsSub warningMark (extractCode (stripSeverity (warningMark ++ rest))).2 = false
    rw [stripSeverity_warning]
    by_contra hc
    rw [Bool.not_eq_false] at hc
    have hcr := containsSub_of_suffix hc hsuf
    rw [hni] at hcr
    exact Bool.false_ne_true hcr
  · have ht : trim raw = warnMark ++ rest := hrest.symm
    have hne : warnMark ++ rest ≠ [] := by simp [warnMark]
    refine ⟨_, parseLine_eq ht hne (isNoise_warn rest), ?_⟩
    show containsSub warnMark (extractCode (stripSeverity (warnMark ++ rest))).2 = false
    rw [stripSeverity_warn]
    by_contra hc
    rw [Bool.not_eq_false] at hc
    have hcr := containsSub_of_suffix hc hsuf
    rw [hni] at hcr
    exact Bool.false_ne_true hcr

/-- Witness for the amended C2 at a concrete input. -/
theorem claim2_witness :
    ∃ d, parseLine "ERROR: missing field".toList = some d ∧
      containsSub errorMark d.message = false :=
  claim2_severity_stripped "ERROR: missing field".toList errorMark
    (by decide) (by decide) (by decide)

/-- C8 counterexample: parsing ERROR: ERROR: x yields the message
ERROR: x, and reparsing that message strips the marker again, yielding the
different message x — so parsing is not idempotent on all of its own
message outputs. -/
theorem claim8_counterexample :
    (parseBinaryOutput "ERROR: ERROR: x".toList true).map Diagnostic.message =
      ["ERROR: x".toList] ∧
    (parseBinaryOutput
        (joinNL ((parseBinaryOutput "ERROR: ERROR: x".toList true).map
          Diagnostic.message)) true).map Diagnostic.message = ["x".toList] ∧
    (["x".toList] : List (List Char)) ≠ ["ERROR: x".toList] := by decide

/-- C8 (amended): reparsing the newline-join of a result's messages yields
the same message sequence whenever each message is trimmed, non-empty,
newline-free, and begins with no noise marker, severity marker, or code
pattern that a second pass could strip. -/
theorem claim8_idempotent :
    ∀ raw b,
    (∀ m ∈ (parseBinaryOutput raw b).map Diagnostic.message,
      trim m = m ∧ m ≠ [] ∧ isNoise m = false ∧ stripSeverity m = m ∧
        (extractCode m).1 = none ∧ '\n' ∉ m) →
    (parseBinaryOutput (joinNL ((parseBinaryOutput raw b).map Diagnostic.message))
        b).map Diagnostic.message =
      (parseBinaryOutput raw b).map Diagnostic.message := by
  intro raw b h
  exact reparse_messages _ b h
    ((List.chain'_map Diagnostic.message).mpr (parseBinaryOutput_chain raw b))

/-- Witness for the amended C8 at a concrete input. -/
theorem claim8_witness :
    (parseBinaryOutput
        (joinNL ((parseBinaryOutput "ERROR: alpha\nERROR: beta".toList true).map
          Diagnostic.message)) true).map Diagnostic.message =
      (parseBinaryOutput "ERROR: alpha\nERROR: beta".toList true).map
        Diagnostic.message :=
  claim8_idempotent "ERROR: alpha\nERROR: beta".toList true (by decide)

-- ===========================================================================
-- Helper lemmas for the audit and fix-button claims
-- ===========================================================================

/-- Containment is preserved by appending on the right. -/
theorem containsSub_append_right {s l : List Char} (v : List Char)
    (h : containsSub s l = true) : containsSub s (l ++ v) = true := by
  rcases (containsSub_iff s l).mp h with ⟨u0, v0, huv⟩
  refine (containsSub_iff s (l ++ v)).mpr ⟨u0, v0 ++ v, ?_⟩
  rw [← huv]
  simp [List.append_assoc]

/-- Membership in a conditional singleton forces equality. -/
theorem mem_ite_singleton {f x : SecurityAuditFinding} {c : Prop} [Decidable c]
    (h : f ∈ (if c then [x] else ([] : List SecurityAuditFinding))) : f = x := by
  by_cases hc : c
  · rw [if_pos hc] at h
    exact List.mem_singleton.mp h
  · rw [if_neg hc] at h
    exact absurd h (List.not_mem_nil f)

/-- C9: `collectExpansoSandboxFindings` never returns an empty array — a
falsy `dockerEnabled` yields exactly the warn docker-disabled finding; a
fully isolated configuration yields exactly the info isolated finding; any
other enabled configuration yields exactly the findings of the failed
checks and no info finding. -/
theorem claim9_sandbox_findings :
    (∀ opts, collectExpansoSandboxFindings opts ≠ []) ∧
    (∀ opts, (∀ o, opts = some o → o.dockerEnabled ≠ some true) →
      collectExpansoSandboxFindings opts = [dockerDisabledFinding] ∧
      dockerDisabledFinding.severity = "warn" ∧
      dockerDisabledFinding.checkId = "expanso.sandbox.docker_disabled") ∧
    (∀ o : ExpansoSandboxOptions, o.dockerEnabled = some true →
      o.networkMode = some "none" → o.readOnlyRootfs = some true →
      o.capsDropped = some true → o.nonRootUser = some true →
      collectExpansoSandboxFindings (some o) = [isolatedFinding o.dockerImage] ∧
      (isolatedFinding o.dockerImage).severity = "info" ∧
      (isolatedFinding o.dockerImage).checkId = "expanso.sandbox.isolated") ∧
    (∀ o : ExpansoSandboxOptions, o.dockerEnabled = some true →
      ¬(o.networkMode = some "none" ∧ o.readOnlyRootfs = some true ∧
        o.capsDropped = some true ∧ o.nonRootUser = some true) →
      collectExpansoSandboxFindings (some o) =
        (if o.networkMode ≠ some "none" then
            [networkFinding (o.networkMode.getD "bridge (default)")] else []) ++
        (if o.readOnlyRootfs ≠ some true then [readonlyRootfsFinding] else []) ++
        (if o.capsDropped ≠ some true then [capsFinding] else []) ++
        (if o.nonRootUser ≠ some true then [rootUserFinding] else []) ∧
      ∀ f ∈ collectExpansoSandboxFindings (some o), f.severity ≠ "info") := by
  refine ⟨?_, ?_, ?_, ?_⟩
  · intro opts
    cases opts with
    | none => simp [collectExpansoSandboxFindings]
    | some o =>
      simp only [collectExpansoSandboxFindings]
      by_cases hd : o.dockerEnabled ≠ some true
      · rw [if_pos hd]
        simp
      · rw [if_neg hd]
        by_cases hf : ((if o.networkMode ≠ some "none" then
              [networkFinding (o.networkMode.getD "bridge (default)")] else []) ++
            (if o.readOnlyRootfs ≠ some true then [readonlyRootfsFinding] else []) ++
            (if o.capsDropped ≠ some true then [capsFinding] else []) ++
            (if o.nonRootUser ≠ some true then [rootUserFinding] else [])) = []
        · rw [if_pos hf]
          simp
        · rw [if_neg hf]
          exact hf
  · intro opts h
    refine ⟨?_, rfl, rfl⟩
    cases opts with
    | none => rfl
    | some o =>
      simp only [collectExpansoSandboxFindings]
      rw [if_pos (h o rfl)]
  · intro o h1 h2 h3 h4 h5
    refine ⟨?_, rfl, rfl⟩
    simp [collectExpansoSandboxFindings, h1, h2, h3, h4, h5]
  · intro o h1 hfail
    have hne : ((if o.networkMode ≠ some "none" then
          [networkFinding (o.networkMode.getD "bridge (default)")] else []) ++
        (if o.readOnlyRootfs ≠ some true then [readonlyRootfsFinding] else []) ++
        (if o.capsDropped ≠ some true then [capsFinding] else []) ++
        (if o.nonRootUser ≠ some true then [rootUserFinding] else [])) ≠ [] := by
      intro hemp
      apply hfail
      rw [List.append_eq_nil, List.append_eq_nil, List.append_eq_nil] at hemp
      obtain ⟨⟨⟨e1, e2⟩, e3⟩, e4⟩ := hemp
      refine ⟨?_, ?_, ?_, ?_⟩
      · by_contra hc
        rw [if_pos hc] at e1
        exact List.cons_ne_nil _ _ e1
      · by_contra hc
        rw [if_pos hc] at e2
        exact List.cons_ne_nil _ _ e2
      · by_contra hc
        rw [if_pos hc] at e3
        exact List.cons_ne_nil _ _ e3
      · by_contra hc
        rw [if_pos hc] at e4
        exact List.cons_ne_nil _ _ e4
    have hcoll : collectExpansoSandboxFindings (some o) =
        (if o.networkMode ≠ some "none" then
            [networkFinding (o.networkMode.getD "bridge (default)")] else []) ++
        (if o.readOnlyRootfs ≠ some true then [readonlyRootfsFinding] else []) ++
        (if o.capsDropped ≠ some true then [capsFinding] else []) ++
        (if o.nonRootUser ≠ some true then [rootUserFinding] else []) := by
      simp only [collectExpansoSandboxFindings]
      rw [if_neg (fun hc => hc h1), if_neg hne]
    refine ⟨hcoll, ?_⟩
    intro f hf
    rw [hcoll] at hf
    simp only [List.mem_append] at hf
    rcases hf with ((hf | hf) | hf) | hf
    · rw [mem_ite_singleton hf]
      intro hc
      exact absurd hc (by simp [networkFinding])
    · rw [mem_ite_singleton hf]
      intro hc
      exact absurd hc (by simp [readonlyRootfsFinding])
    · rw [mem_ite_singleton hf]
      intro hc
      exact absurd hc (by simp [capsFinding])
    · rw [mem_ite_singleton hf]
      intro hc
      exact absurd hc (by simp [rootUserFinding])

/-- Witness for C9 at concrete configurations. -/
theorem claim9_witness :
    collectExpansoSandboxFindings none = [dockerDisabledFinding] ∧
    collectExpansoSandboxFindings (some
      { dockerEnabled := some true, dockerImage := some "expanso/validate:latest",
        networkMode := some "none", readOnlyRootfs := some true,
        capsDropped := some true, nonRootUser := some true }) =
      [isolatedFinding (some "expanso/validate:latest")] ∧
    (∀ f ∈ collectExpansoSandboxFindings (some
      { dockerEnabled := some true, dockerImage := none,
        networkMode := some "bridge", readOnlyRootfs := none,
        capsDropped := none, nonRootUser := none }), f.severity ≠ "info") :=
  ⟨(claim9_sandbox_findings.2.1 none (fun o h => Option.noConfusion h)).1,
   (claim9_sandbox_findings.2.2.1 _ rfl rfl rfl rfl rfl).1,
   (claim9_sandbox_findings.2.2.2 _ rfl (by simp)).2⟩

/-- C10: the Telegram fix-button and its callback detector round-trip, the
detector accepts exactly the strings trimming to the fixed callback data,
and the Discord event detector accepts every event text the builder can
produce, on both platforms and for every username and user ID. -/
theorem claim10_fix_button_roundtrip :
    (∀ btn ∈ buildExpansoFixTelegramButton,
      isExpansoFixTelegramCallback btn.callback_data = true) ∧
    (∀ data, isExpansoFixTelegramCallback data = true ↔
      trim data = EXPANSO_FIX_CALLBACK_DATA) ∧
    (∀ (p : Platform) (username userId : List Char),
      isExpansoFixDiscordEvent
        (buildExpansoFixEventText p username userId) = true) := by
  refine ⟨?_, ?_, ?_⟩
  · intro btn hb
    have hbtn : btn = ⟨EXPANSO_FIX_BUTTON_LABEL, EXPANSO_FIX_CALLBACK_DATA⟩ :=
      List.mem_singleton.mp hb
    rw [hbtn]
    decide
  · intro data
    simp [isExpansoFixTelegramCallback]
  · intro p u i
    have h0 : containsSub fixNeedle
        (platformName p ++ " component: ".toList ++ EXPANSO_FIX_COMPONENT_ID ++
          " clicked by ".toList) = true := by
      cases p <;> decide
    simp only [isExpansoFixDiscordEvent, buildExpansoFixEventText]
    exact containsSub_cons '['
      (containsSub_append_right ")]".toList
        (containsSub_append_right i
          (containsSub_append_right " (".toList
            (containsSub_append_right u h0))))

/-- Witness for C10 at the built button and concrete user data. -/
theorem claim10_witness :
    isExpansoFixTelegramCallback
      (({ text := EXPANSO_FIX_BUTTON_LABEL,
          callback_data := EXPANSO_FIX_CALLBACK_DATA } :
        TelegramInlineButton).callback_data) = true ∧
    isExpansoFixDiscordEvent
      (buildExpansoFixEventText Platform.discord "Alice".toList "123".toList) =
      true :=
  ⟨claim10_fix_button_roundtrip.1 _ (by decide),
   claim10_fix_button_roundtrip.2.2 Platform.discord "Alice".toList "123".toList⟩
